import Mathlib

/-!
Shallow embedding of the binary-search-tree module `src/Customlib/BST.js`
of the JS_GUIDE repository.

The module exports `insert`, `min`, `count`, `inOrder`, `preOrder`,
`postOrder` over nodes of the form `{ data, left, right }` where `left`
and `right` are either `null` or another node.

Two views of the code are embedded:

* a pure functional model (`BST.Tree`, `BST.insert`, …) in which a JS node
  is an inductive tree, `null` is the `nil` constructor, and a traversal is
  identified with the sequence of values it passes to `console.log`
  (the JS traversals print each `node.data` and return nothing; the list
  returned here is exactly that print trace, in order);

* an explicit-heap model (`BST.Heap`, `BST.insertH`, …) in which a JS node
  is a record stored at a numeric address in a heap, `null` is `none`,
  field assignment is `List.set`, and `new Node(data)` appends a record.
  Recursive procedures take a fuel argument and return `none` on fuel
  exhaustion or on a dangling address; this model is used for claims about
  object identity and about the absence of heap mutation.
-/

namespace BST

/-- Pure-model tree: `nil` is the JS `null`, `node d l r` is a JS `Node`
with `data = d`, `left = l`, `right = r`. -/
inductive Tree : Type where
  | nil : Tree
  | node (data : Int) (left : Tree) (right : Tree) : Tree
deriving Repr, DecidableEq

/-- `insert` from BST.js: on `null` build a fresh leaf; otherwise recurse
left when `data <= node.data`, right otherwise, reattach, return the root. -/
def insert : Tree → Int → Tree
  | Tree.nil, data => Tree.node data Tree.nil Tree.nil
  | Tree.node d l r, data =>
    if data ≤ d then Tree.node d (insert l data) r
    else Tree.node d l (insert r data)

/-- The `while (node.left !== null)` loop of `min`: `mv` is the current
`minValue`, the tree argument is the current node's `left` field. -/
def minGo (mv : Int) : Tree → Int
  | Tree.nil => mv
  | Tree.node d l _ => minGo d l

/-- `min` from BST.js: `null` on the empty tree (embedded as `none`),
otherwise the value reached by the left-walking loop. -/
def min : Tree → Option Int
  | Tree.nil => none
  | Tree.node d l _ => some (minGo d l)

/-- `count` from BST.js: structural node count. -/
def count : Tree → Nat
  | Tree.nil => 0
  | Tree.node _ l r => count l + count r + 1

/-- `inOrder` from BST.js, as its `console.log` trace: left, root, right. -/
def inOrder : Tree → List Int
  | Tree.nil => []
  | Tree.node d l r => inOrder l ++ d :: inOrder r

/-- `preOrder` from BST.js, as its `console.log` trace: root, left, right. -/
def preOrder : Tree → List Int
  | Tree.nil => []
  | Tree.node d l r => d :: (preOrder l ++ preOrder r)

/-- `postOrder` from BST.js, as its `console.log` trace: left, right, root. -/
def postOrder : Tree → List Int
  | Tree.nil => []
  | Tree.node d l r => postOrder l ++ postOrder r ++ [d]

/-- Repeated insertion starting from the empty tree, in list order, as done
by `executeNodeCase` in the demo component (`root = insert(root, key)` for
each key). -/
def insertList (xs : List Int) : Tree :=
  xs.foldl insert Tree.nil

/-- `allTree p t`: the predicate `p` holds of every key in `t`. -/
def allTree (p : Int → Bool) : Tree → Bool
  | Tree.nil => true
  | Tree.node d l r => p d && allTree p l && allTree p r

/-- The spec's ordering invariant: at every node, every key of the left
subtree is `≤` the node's key and every key of the right subtree is `>`
the node's key. -/
def isBST : Tree → Bool
  | Tree.nil => true
  | Tree.node d l r =>
    allTree (fun x => x ≤ d) l && allTree (fun x => d < x) r && isBST l && isBST r

/-- Modelled from the spec's words for `min`: "walk left children until a
node with no left child is found; its `data` is the result" — a direct
recursive left walk, to be compared with the loop-based `min` of the code. -/
def leftmostSpec : Tree → Option Int
  | Tree.nil => none
  | Tree.node d l _ =>
    match l with
    | Tree.nil => some d
    | Tree.node _ _ _ => leftmostSpec l

/-- Heap-model record for a JS `Node`: `data`, and `left`/`right` links
that are either `none` (JS `null`) or the numeric address of another node. -/
structure NodeRec where
  data : Int
  left : Option Nat
  right : Option Nat
deriving Repr, DecidableEq

/-- The heap is the store of allocated nodes; the address of a node is its
index, `new Node(data)` appends a fresh record at address `h.length`. -/
abbrev Heap := List NodeRec

/-- Heap-model `insert`: returns the updated heap and the address of the
returned root, or `none` on fuel exhaustion or a dangling address (neither
occurs in a run of the JS program). `node.left = insert(node.left, data)`
is `List.set` of the record with its `left` field replaced, re-reading the
record from the heap current at assignment time. -/
def insertH : Nat → Heap → Option Nat → Int → Option (Heap × Nat)
  | _, h, none, data => some (h ++ [⟨data, none, none⟩], h.length)
  | 0, _, some _, _ => none
  | fuel + 1, h, some a, data =>
    match h.get? a with
    | none => none
    | some n =>
      if data ≤ n.data then
        (insertH fuel h n.left data).bind fun p =>
          (p.1.get? a).map fun n1 =>
            (p.1.set a { n1 with left := some p.2 }, a)
      else
        (insertH fuel h n.right data).bind fun p =>
          (p.1.get? a).map fun n1 =>
            (p.1.set a { n1 with right := some p.2 }, a)

/-- Heap-model `inOrder`: the `console.log` trace and the heap after the
call (the body performs no assignment, so no `List.set` occurs). -/
def inOrderH : Nat → Heap → Option Nat → Option (List Int × Heap)
  | _, h, none => some ([], h)
  | 0, _, some _ => none
  | fuel + 1, h, some a =>
    match h.get? a with
    | none => none
    | some n =>
      (inOrderH fuel h n.left).bind fun p =>
        (p.2.get? a).bind fun n1 =>
          (inOrderH fuel p.2 n1.right).map fun q =>
            (p.1 ++ n1.data :: q.1, q.2)

/-- Heap-model `preOrder`: root, then left, then right. -/
def preOrderH : Nat → Heap → Option Nat → Option (List Int × Heap)
  | _, h, none => some ([], h)
  | 0, _, some _ => none
  | fuel + 1, h, some a =>
    match h.get? a with
    | none => none
    | some n =>
      (preOrderH fuel h n.left).bind fun p =>
        (p.2.get? a).bind fun n1 =>
          (preOrderH fuel p.2 n1.right).map fun q =>
            (n.data :: (p.1 ++ q.1), q.2)

/-- Heap-model `postOrder`: left, then right, then root. -/
def postOrderH : Nat → Heap → Option Nat → Option (List Int × Heap)
  | _, h, none => some ([], h)
  | 0, _, some _ => none
  | fuel + 1, h, some a =>
    match h.get? a with
    | none => none
    | some n =>
      (postOrderH fuel h n.left).bind fun p =>
        (p.2.get? a).bind fun n1 =>
          (postOrderH fuel p.2 n1.right).bind fun q =>
            (q.2.get? a).map fun n2 =>
              (p.1 ++ q.1 ++ [n2.data], q.2)

/-- The `while (node.left !== null)` loop of `min` in the heap model:
`a` is the current cursor, `mv` the current `minValue`; each iteration
moves the cursor to `node.left` and reloads `minValue` from it. -/
def minGoH : Nat → Heap → Nat → Int → Option (Int × Heap)
  | 0, _, _, _ => none
  | fuel + 1, h, a, mv =>
    match h.get? a with
    | none => none
    | some n =>
      match n.left with
      | none => some (mv, h)
      | some a1 =>
        match h.get? a1 with
        | none => none
        | some n1 => minGoH fuel h a1 n1.data

/-- Heap-model `min`: `some (none, h)` on the empty tree (the JS function
returns `null` without touching the heap), otherwise the loop result. -/
def minH : Nat → Heap → Option Nat → Option (Option Int × Heap)
  | _, h, none => some (none, h)
  | fuel, h, some a =>
    match h.get? a with
    | none => none
    | some n => (minGoH fuel h a n.data).map fun p => (some p.1, p.2)

/-- A three-node heap used to exercise the heap-model operations on a
concrete input: address 0 holds 2 with children at 1 (key 1) and 2 (key 3). -/
def demoHeap : Heap :=
  [⟨2, some 1, some 2⟩, ⟨1, none, none⟩, ⟨3, none, none⟩]

/-! ### Helper lemmas about the pure model -/

theorem allTree_iff (p : Int → Bool) (t : Tree) :
    allTree p t = true ↔ ∀ x ∈ inOrder t, p x = true := by
  induction t with
  | nil => simp [allTree, inOrder]
  | node d l r ihl ihr =>
    simp only [allTree, inOrder, Bool.and_eq_true, ihl, ihr, List.mem_append,
      List.mem_cons]
    constructor
    · rintro ⟨⟨hd, hl⟩, hr⟩ x (hx | rfl | hx)
      · exact hl x hx
      · exact hd
      · exact hr x hx
    · intro hx
      exact ⟨⟨hx d (Or.inr (Or.inl rfl)), fun x h => hx x (Or.inl h)⟩,
        fun x h => hx x (Or.inr (Or.inr h))⟩

theorem allTree_insert (p : Int → Bool) (t : Tree) (k : Int)
    (ht : allTree p t = true) (hk : p k = true) :
    allTree p (insert t k) = true := by
  induction t with
  | nil => simp [insert, allTree, hk]
  | node d l r ihl ihr =>
    simp only [allTree, Bool.and_eq_true] at ht
    obtain ⟨⟨hd, hl⟩, hr⟩ := ht
    by_cases hkd : k ≤ d
    · simp [insert, hkd, allTree, hd, hr, ihl hl]
    · simp [insert, hkd, allTree, hd, hl, ihr hr]

theorem insert_isBST (t : Tree) (k : Int) (h : isBST t = true) :
    isBST (insert t k) = true := by
  induction t with
  | nil => simp [insert, isBST, allTree]
  | node d l r ihl ihr =>
    simp only [isBST, Bool.and_eq_true] at h
    obtain ⟨⟨⟨hal, har⟩, hbl⟩, hbr⟩ := h
    by_cases hkd : k ≤ d
    · simp only [insert, if_pos hkd, isBST, Bool.and_eq_true]
      exact ⟨⟨⟨allTree_insert _ _ _ hal (by simpa using hkd), har⟩, ihl hbl⟩, hbr⟩
    · simp only [insert, if_neg hkd, isBST, Bool.and_eq_true]
      exact ⟨⟨⟨hal, allTree_insert _ _ _ har (by simpa using lt_of_not_le hkd)⟩,
        hbl⟩, ihr hbr⟩

theorem foldl_insert_isBST (xs : List Int) (t : Tree) (h : isBST t = true) :
    isBST (xs.foldl insert t) = true := by
  induction xs generalizing t with
  | nil => simpa using h
  | cons x xs ih => exact ih _ (insert_isBST t x h)

theorem insertList_isBST (xs : List Int) : isBST (insertList xs) = true :=
  foldl_insert_isBST xs Tree.nil rfl

theorem sorted_inOrder (t : Tree) (h : isBST t = true) :
    (inOrder t).Sorted (· ≤ ·) := by
  induction t with
  | nil => simp [inOrder]
  | node d l r ihl ihr =>
    simp only [isBST, Bool.and_eq_true] at h
    obtain ⟨⟨⟨hal, har⟩, hbl⟩, hbr⟩ := h
    have hl := (allTree_iff _ _).mp hal
    have hr := (allTree_iff _ _).mp har
    simp only [decide_eq_true_eq] at hl hr
    rw [inOrder, List.Sorted, List.pairwise_append]
    refine ⟨ihl hbl, ?_, ?_⟩
    · rw [List.pairwise_cons]
      exact ⟨fun b hb => le_of_lt (hr b hb), ihr hbr⟩
    · intro a ha b hb
      rcases List.mem_cons.mp hb with rfl | hb'
      · exact hl a ha
      · exact le_trans (hl a ha) (le_of_lt (hr b hb'))

theorem inOrder_insert_perm (t : Tree) (k : Int) :
    (inOrder (insert t k)).Perm (k :: inOrder t) := by
  induction t with
  | nil => simp [insert, inOrder]
  | node d l r ihl ihr =>
    by_cases hkd : k ≤ d
    · simp only [insert, if_pos hkd, inOrder]
      exact ihl.append_right _
    · simp only [insert, if_neg hkd, inOrder]
      have h1 : (inOrder l ++ d :: inOrder (insert r k)).Perm
          (inOrder l ++ d :: k :: inOrder r) :=
        (ihr.cons d).append_left (inOrder l)
      have h2 : ((inOrder l ++ [d]) ++ k :: inOrder r).Perm
          (k :: ((inOrder l ++ [d]) ++ inOrder r)) := List.perm_middle
      have h3 : (inOrder l ++ d :: k :: inOrder r).Perm
          (k :: (inOrder l ++ d :: inOrder r)) := by
        simpa [List.append_assoc] using h2
      exact h1.trans h3

theorem foldl_insert_inOrder_perm (xs : List Int) (t : Tree) :
    (inOrder (xs.foldl insert t)).Perm (xs ++ inOrder t) := by
  induction xs generalizing t with
  | nil => simp
  | cons x xs ih =>
    have h1 := ih (insert t x)
    have h2 : (xs ++ inOrder (insert t x)).Perm (xs ++ x :: inOrder t) :=
      (inOrder_insert_perm t x).append_left xs
    have h3 : (xs ++ x :: inOrder t).Perm (x :: (xs ++ inOrder t)) :=
      List.perm_middle
    simpa using (h1.trans h2).trans h3

theorem insertList_inOrder_perm (xs : List Int) :
    (inOrder (insertList xs)).Perm xs := by
  simpa [insertList, inOrder] using foldl_insert_inOrder_perm xs Tree.nil

theorem count_insert (t : Tree) (k : Int) : count (insert t k) = count t + 1 := by
  induction t with
  | nil => simp [insert, count]
  | node d l r ihl ihr =>
    by_cases hkd : k ≤ d <;> simp [insert, hkd, count, ihl, ihr] <;> omega

theorem count_insertList (xs : List Int) : count (insertList xs) = xs.length := by
  have key : ∀ (ys : List Int) (t : Tree),
      count (ys.foldl insert t) = ys.length + count t := by
    intro ys
    induction ys with
    | nil => intro t; simp
    | cons y ys ih =>
      intro t
      simp only [List.foldl_cons, ih, count_insert, List.length_cons]
      omega
  simpa [insertList, count] using key xs Tree.nil

theorem inOrder_node_ne_nil (d : Int) (l r : Tree) :
    inOrder (Tree.node d l r) ≠ [] := by
  simp [inOrder]

theorem min_eq_head (t : Tree) : min t = (inOrder t).head? := by
  induction t with
  | nil => rfl
  | node d l r ihl ihr =>
    cases l with
    | nil => simp [min, minGo, inOrder]
    | node e el er =>
      obtain ⟨a, A, hA⟩ := List.exists_cons_of_ne_nil (inOrder_node_ne_nil e el er)
      have h1 : min (Tree.node d (Tree.node e el er) r) =
          min (Tree.node e el er) := by
        simp [min, minGo]
      have h2 : inOrder (Tree.node d (Tree.node e el er) r) =
          inOrder (Tree.node e el er) ++ d :: inOrder r := rfl
      rw [h1, h2, ihl, hA]
      simp

theorem min_eq_leftmostSpec (t : Tree) : min t = leftmostSpec t := by
  induction t with
  | nil => rfl
  | node d l r ihl ihr =>
    cases l with
    | nil => simp [min, minGo, leftmostSpec]
    | node e el er =>
      have h1 : min (Tree.node d (Tree.node e el er) r) =
          min (Tree.node e el er) := by
        simp [min, minGo]
      have h2 : leftmostSpec (Tree.node d (Tree.node e el er) r) =
          leftmostSpec (Tree.node e el er) := rfl
      rw [h1, h2, ihl]

theorem preOrder_perm_inOrder (t : Tree) : (preOrder t).Perm (inOrder t) := by
  induction t with
  | nil => rfl
  | node d l r ihl ihr =>
    simp only [preOrder, inOrder]
    have h1 : (preOrder l ++ preOrder r).Perm (inOrder l ++ inOrder r) :=
      ihl.append ihr
    have h2 : (d :: (inOrder l ++ inOrder r)).Perm
        (inOrder l ++ d :: inOrder r) := List.perm_middle.symm
    exact (h1.cons d).trans h2

/-! ### Helper lemmas about the heap model -/

theorem inOrderH_heap : ∀ (fuel : Nat) (h : Heap) (p : Option Nat)
    (out : List Int) (h' : Heap), inOrderH fuel h p = some (out, h') → h' = h := by
  intro fuel
  induction fuel with
  | zero =>
    intro h p out h' hx
    cases p with
    | none =>
      simp only [inOrderH, Option.some.injEq, Prod.mk.injEq] at hx
      exact hx.2.symm
    | some a => simp [inOrderH] at hx
  | succ n ih =>
    intro h p out h' hx
    cases p with
    | none =>
      simp only [inOrderH, Option.some.injEq, Prod.mk.injEq] at hx
      exact hx.2.symm
    | some a =>
      simp only [inOrderH] at hx
      cases hg : h.get? a with
      | none => rw [hg] at hx; simp at hx
      | some nd =>
        rw [hg] at hx
        simp only [Option.bind_eq_some] at hx
        obtain ⟨⟨o1, h1⟩, hx1, n1, hn1, hx3⟩ := hx
        simp only [Option.map_eq_some'] at hx3
        obtain ⟨⟨o2, h2⟩, hx4, hx5⟩ := hx3
        have e1 := ih h nd.left o1 h1 hx1
        have e2 := ih h1 n1.right o2 h2 hx4
        cases hx5
        exact e2.trans e1

theorem preOrderH_heap : ∀ (fuel : Nat) (h : Heap) (p : Option Nat)
    (out : List Int) (h' : Heap), preOrderH fuel h p = some (out, h') → h' = h := by
  intro fuel
  induction fuel with
  | zero =>
    intro h p out h' hx
    cases p with
    | none =>
      simp only [preOrderH, Option.some.injEq, Prod.mk.injEq] at hx
      exact hx.2.symm
    | some a => simp [preOrderH] at hx
  | succ n ih =>
    intro h p out h' hx
    cases p with
    | none =>
      simp only [preOrderH, Option.some.injEq, Prod.mk.injEq] at hx
      exact hx.2.symm
    | some a =>
      simp only [preOrderH] at hx
      cases hg : h.get? a with
      | none => rw [hg] at hx; simp at hx
      | some nd =>
        rw [hg] at hx
        simp only [Option.bind_eq_some] at hx
        obtain ⟨⟨o1, h1⟩, hx1, n1, hn1, hx3⟩ := hx
        simp only [Option.map_eq_some'] at hx3
        obtain ⟨⟨o2, h2⟩, hx4, hx5⟩ := hx3
        have e1 := ih h nd.left o1 h1 hx1
        have e2 := ih h1 n1.right o2 h2 hx4
        cases hx5
        exact e2.trans e1

theorem postOrderH_heap : ∀ (fuel : Nat) (h : Heap) (p : Option Nat)
    (out : List Int) (h' : Heap), postOrderH fuel h p = some (out, h') → h' = h := by
  intro fuel
  induction fuel with
  | zero =>
    intro h p out h' hx
    cases p with
    | none =>
      simp only [postOrderH, Option.some.injEq, Prod.mk.injEq] at hx
      exact hx.2.symm
    | some a => simp [postOrderH] at hx
  | succ n ih =>
    intro h p out h' hx
    cases p with
    | none =>
      simp only [postOrderH, Option.some.injEq, Prod.mk.injEq] at hx
      exact hx.2.symm
    | some a =>
      simp only [postOrderH] at hx
      cases hg : h.get? a with
      | none => rw [hg] at hx; simp at hx
      | some nd =>
        rw [hg] at hx
        simp only [Option.bind_eq_some] at hx
        obtain ⟨⟨o1, h1⟩, hx1, n1, hn1, hx3⟩ := hx
        obtain ⟨⟨o2, h2⟩, hx4, hx5⟩ := hx3
        simp only [Option.map_eq_some'] at hx5
        obtain ⟨n2, hn2, hx6⟩ := hx5
        have e1 := ih h nd.left o1 h1 hx1
        have e2 := ih h1 n1.right o2 h2 hx4
        cases hx6
        exact e2.trans e1

theorem minGoH_heap : ∀ (fuel : Nat) (h : Heap) (a : Nat) (mv res : Int)
    (h' : Heap), minGoH fuel h a mv = some (res, h') → h' = h := by
  intro fuel
  induction fuel with
  | zero => intro h a mv res h' hx; simp [minGoH] at hx
  | succ n ih =>
    intro h a mv res h' hx
    simp only [minGoH] at hx
    cases hg : h.get? a with
    | none => rw [hg] at hx; simp at hx
    | some nd =>
      rw [hg] at hx
      dsimp only at hx
      cases hl : nd.left with
      | none =>
        rw [hl] at hx
        simp only [Option.some.injEq, Prod.mk.injEq] at hx
        exact hx.2.symm
      | some a1 =>
        rw [hl] at hx
        dsimp only at hx
        cases hg1 : h.get? a1 with
        | none => rw [hg1] at hx; simp at hx
        | some n1 =>
          rw [hg1] at hx
          exact ih h a1 n1.data res h' hx

theorem minH_heap (fuel : Nat) (h : Heap) (p : Option Nat) (res : Option Int)
    (h' : Heap) (hx : minH fuel h p = some (res, h')) : h' = h := by
  cases p with
  | none =>
    simp only [minH, Option.some.injEq, Prod.mk.injEq] at hx
    exact hx.2.symm
  | some a =>
    simp only [minH] at hx
    cases hg : h.get? a with
    | none => rw [hg] at hx; simp at hx
    | some nd =>
      rw [hg] at hx
      simp only [Option.map_eq_some'] at hx
      obtain ⟨⟨mv, h1⟩, hx1, hx2⟩ := hx
      cases hx2
      exact minGoH_heap fuel h a nd.data mv h1 hx1

theorem insertH_root (fuel : Nat) (h : Heap) (a : Nat) (k : Int) (h' : Heap)
    (a' : Nat) (hx : insertH fuel h (some a) k = some (h', a')) : a' = a := by
  cases fuel with
  | zero => simp [insertH] at hx
  | succ n =>
    simp only [insertH] at hx
    cases hg : h.get? a with
    | none => rw [hg] at hx; simp at hx
    | some nd =>
      rw [hg] at hx
      dsimp only at hx
      by_cases hc : k ≤ nd.data
      · rw [if_pos hc] at hx
        simp only [Option.bind_eq_some, Option.map_eq_some'] at hx
        obtain ⟨p1, hp1, n1, hn1, he⟩ := hx
        cases he
        rfl
      · rw [if_neg hc] at hx
        simp only [Option.bind_eq_some, Option.map_eq_some'] at hx
        obtain ⟨p1, hp1, n1, hn1, he⟩ := hx
        cases he
        rfl

theorem postOrder_perm_inOrder (t : Tree) : (postOrder t).Perm (inOrder t) := by
  induction t with
  | nil => rfl
  | node d l r ihl ihr =>
    simp only [postOrder, inOrder]
    have h1 : ((postOrder l ++ postOrder r) ++ [d]).Perm
        ((inOrder l ++ inOrder r) ++ [d]) := (ihl.append ihr).append_right _
    have h2 : ((inOrder l ++ inOrder r) ++ [d]).Perm
        (d :: (inOrder l ++ inOrder r)) := List.perm_append_singleton d _
    have h3 : (d :: (inOrder l ++ inOrder r)).Perm
        (inOrder l ++ d :: inOrder r) := List.perm_middle.symm
    exact (h1.trans h2).trans h3

/-! ### Claim theorems -/

/-- C1: for every sequence of keys inserted one at a time via `insert`
starting from the empty tree, the `inOrder` traversal of the resulting tree
produces the keys in non-decreasing sorted order. -/
theorem C1_inOrder_of_inserts_sorted (xs : List Int) :
    (inOrder (insertList xs)).Sorted (· ≤ ·) :=
  sorted_inOrder _ (insertList_isBST xs)

/-- C2: `insert` preserves the BST ordering invariant (every key of a left
subtree is `≤` its node's key, every key of a right subtree is `>` it). -/
theorem C2_insert_preserves_invariant (t : Tree) (k : Int)
    (h : isBST t = true) : isBST (insert t k) = true :=
  insert_isBST t k h

theorem C2_insert_preserves_invariant_witness :
    isBST (Tree.node 2 Tree.nil Tree.nil) = true ∧
    isBST (insert (Tree.node 2 Tree.nil Tree.nil) 1) = true :=
  ⟨by decide, C2_insert_preserves_invariant (Tree.node 2 Tree.nil Tree.nil) 1
    (by decide)⟩

/-- C3: `insert` on an empty root returns a single-node tree holding the key
with empty children; on a non-empty root it recurses left when
`key ≤ root.data` (so an equal key goes left — duplicates never error, the
function is total) and right otherwise, reattaching the result as the
corresponding child; in the heap model the address returned for a non-empty
root is the root's own address (unchanged identity). -/
theorem C3_insert_behavior :
    (∀ k : Int, insert Tree.nil k = Tree.node k Tree.nil Tree.nil) ∧
    (∀ (k d : Int) (l r : Tree), k ≤ d →
      insert (Tree.node d l r) k = Tree.node d (insert l k) r) ∧
    (∀ (k d : Int) (l r : Tree), ¬ k ≤ d →
      insert (Tree.node d l r) k = Tree.node d l (insert r k)) ∧
    (∀ (k : Int) (l r : Tree),
      insert (Tree.node k l r) k = Tree.node k (insert l k) r) ∧
    (∀ (fuel : Nat) (h : Heap) (a : Nat) (k : Int) (h' : Heap) (a' : Nat),
      insertH fuel h (some a) k = some (h', a') → a' = a) := by
  refine ⟨fun k => rfl, ?_, ?_, ?_, insertH_root⟩
  · intro k d l r hkd
    simp [insert, hkd]
  · intro k d l r hkd
    simp [insert, hkd]
  · intro k l r
    simp [insert]

theorem C3_insert_behavior_witness :
    ((3 : Int) ≤ 5 ∧
      insert (Tree.node 5 Tree.nil Tree.nil) 3 =
        Tree.node 5 (insert Tree.nil 3) Tree.nil) ∧
    (¬ (7 : Int) ≤ 5 ∧
      insert (Tree.node 5 Tree.nil Tree.nil) 7 =
        Tree.node 5 Tree.nil (insert Tree.nil 7)) ∧
    (insertH 2 [⟨5, none, none⟩] (some 0) 7 =
        some ([⟨5, none, some 1⟩, ⟨7, none, none⟩], 0) ∧ (0 : Nat) = 0) :=
  ⟨⟨by decide, C3_insert_behavior.2.1 3 5 Tree.nil Tree.nil (by decide)⟩,
   ⟨by decide, C3_insert_behavior.2.2.1 7 5 Tree.nil Tree.nil (by decide)⟩,
   ⟨by decide, C3_insert_behavior.2.2.2.2 2 [⟨5, none, none⟩] 0 7
      [⟨5, none, some 1⟩, ⟨7, none, none⟩] 0 (by decide)⟩⟩

/-- C4: `min` of the empty tree is the explicit empty-result `none` (it does
not fail: `min` is total); on any tree it returns the data of the node
reached by walking left children until one has no left child
(`leftmostSpec`); and after inserting any non-empty sequence of keys into
an initially empty tree it returns the smallest inserted key. -/
theorem C4_min_spec :
    min Tree.nil = none ∧
    (∀ t : Tree, min t = leftmostSpec t) ∧
    (∀ (x : Int) (xs : List Int), ∃ m, min (insertList (x :: xs)) = some m ∧
      m ∈ x :: xs ∧ ∀ y ∈ x :: xs, m ≤ y) := by
  refine ⟨rfl, min_eq_leftmostSpec, ?_⟩
  intro x xs
  have hperm := insertList_inOrder_perm (x :: xs)
  have hsort := sorted_inOrder _ (insertList_isBST (x :: xs))
  have hne : inOrder (insertList (x :: xs)) ≠ [] := by
    intro h0
    have hlen := hperm.length_eq
    rw [h0] at hlen
    simp at hlen
  obtain ⟨m, A, hA⟩ := List.exists_cons_of_ne_nil hne
  rw [hA] at hperm hsort
  refine ⟨m, ?_, ?_, ?_⟩
  · rw [min_eq_head, hA]
    rfl
  · exact hperm.mem_iff.mp (List.mem_cons_self m A)
  · intro y hy
    rcases List.mem_cons.mp (hperm.mem_iff.mpr hy) with rfl | hy'
    · exact le_refl y
    · exact List.rel_of_sorted_cons hsort y hy'

/-- C5: `count` is 0 on the empty tree, `1 + count left + count right` on a
node, and equals the number of inserted keys after any insertion sequence
(duplicates included). -/
theorem C5_count_spec :
    count Tree.nil = 0 ∧
    (∀ (d : Int) (l r : Tree), count (Tree.node d l r) = 1 + count l + count r) ∧
    (∀ xs : List Int, count (insertList xs) = xs.length) := by
  refine ⟨rfl, ?_, count_insertList⟩
  intro d l r
  simp [count]
  omega

/-- C6: `inOrder` lists keys left-root-right, `preOrder` root-left-right,
`postOrder` left-right-root; each yields `[]` on the empty tree, and all
three list exactly the keys of the tree (they are permutations of one
another). -/
theorem C6_traversal_orders :
    inOrder Tree.nil = [] ∧ preOrder Tree.nil = [] ∧ postOrder Tree.nil = [] ∧
    (∀ (d : Int) (l r : Tree),
      inOrder (Tree.node d l r) = inOrder l ++ d :: inOrder r ∧
      preOrder (Tree.node d l r) = d :: (preOrder l ++ preOrder r) ∧
      postOrder (Tree.node d l r) = postOrder l ++ postOrder r ++ [d]) ∧
    (∀ t : Tree, (preOrder t).Perm (inOrder t) ∧ (postOrder t).Perm (inOrder t)) :=
  ⟨rfl, rfl, rfl, fun _ _ _ => ⟨rfl, rfl, rfl⟩,
   fun t => ⟨preOrder_perm_inOrder t, postOrder_perm_inOrder t⟩⟩

/-- C7: the three traversals are read-only — in the heap model, whenever a
traversal terminates, the resulting heap (every node's data and links) is
exactly the input heap. -/
theorem C7_traversals_readonly :
    (∀ (fuel : Nat) (h : Heap) (p : Option Nat) (out : List Int) (h' : Heap),
      inOrderH fuel h p = some (out, h') → h' = h) ∧
    (∀ (fuel : Nat) (h : Heap) (p : Option Nat) (out : List Int) (h' : Heap),
      preOrderH fuel h p = some (out, h') → h' = h) ∧
    (∀ (fuel : Nat) (h : Heap) (p : Option Nat) (out : List Int) (h' : Heap),
      postOrderH fuel h p = some (out, h') → h' = h) :=
  ⟨inOrderH_heap, preOrderH_heap, postOrderH_heap⟩

theorem C7_traversals_readonly_witness :
    (inOrderH 3 demoHeap (some 0) = some ([1, 2, 3], demoHeap) ∧
      demoHeap = demoHeap) ∧
    (preOrderH 3 demoHeap (some 0) = some ([2, 1, 3], demoHeap) ∧
      demoHeap = demoHeap) ∧
    (postOrderH 3 demoHeap (some 0) = some ([1, 3, 2], demoHeap) ∧
      demoHeap = demoHeap) :=
  ⟨⟨by decide,
    C7_traversals_readonly.1 3 demoHeap (some 0) [1, 2, 3] demoHeap (by decide)⟩,
   ⟨by decide,
    C7_traversals_readonly.2.1 3 demoHeap (some 0) [2, 1, 3] demoHeap (by decide)⟩,
   ⟨by decide,
    C7_traversals_readonly.2.2 3 demoHeap (some 0) [1, 3, 2] demoHeap (by decide)⟩⟩

/-- C8: traversal is deterministic and idempotent — running the same
traversal twice in succession (the second run on the heap left by the
first) with no intervening `insert` yields identical output sequences. -/
theorem C8_traversal_idempotent :
    ∀ (fuel : Nat) (h : Heap) (p : Option Nat) (o1 o2 : List Int)
      (h1 h2 : Heap),
      (inOrderH fuel h p = some (o1, h1) →
        inOrderH fuel h1 p = some (o2, h2) → o1 = o2) ∧
      (preOrderH fuel h p = some (o1, h1) →
        preOrderH fuel h1 p = some (o2, h2) → o1 = o2) ∧
      (postOrderH fuel h p = some (o1, h1) →
        postOrderH fuel h1 p = some (o2, h2) → o1 = o2) := by
  intro fuel h p o1 o2 h1 h2
  refine ⟨?_, ?_, ?_⟩
  · intro hx1 hx2
    have e1 := inOrderH_heap fuel h p o1 h1 hx1
    subst e1
    have e2 := hx1.symm.trans hx2
    simp only [Option.some.injEq, Prod.mk.injEq] at e2
    exact e2.1
  · intro hx1 hx2
    have e1 := preOrderH_heap fuel h p o1 h1 hx1
    subst e1
    have e2 := hx1.symm.trans hx2
    simp only [Option.some.injEq, Prod.mk.injEq] at e2
    exact e2.1
  · intro hx1 hx2
    have e1 := postOrderH_heap fuel h p o1 h1 hx1
    subst e1
    have e2 := hx1.symm.trans hx2
    simp only [Option.some.injEq, Prod.mk.injEq] at e2
    exact e2.1

theorem C8_traversal_idempotent_witness :
    inOrderH 3 demoHeap (some 0) = some ([1, 2, 3], demoHeap) ∧
    ([1, 2, 3] : List Int) = [1, 2, 3] :=
  ⟨by decide,
   (C8_traversal_idempotent 3 demoHeap (some 0) [1, 2, 3] [1, 2, 3] demoHeap
      demoHeap).1 (by decide) (by decide)⟩

/-- C9: inserting 4, 2, 1, 3, 6, 5 in that order into an initially empty
tree (the demo component's `executeNodeCase` sequence) yields `inOrder`
trace `[1, 2, 3, 4, 5, 6]`, `count` 6 and `min` 1. -/
theorem C9_demo_scenario :
    inOrder (insertList [4, 2, 1, 3, 6, 5]) = [1, 2, 3, 4, 5, 6] ∧
    count (insertList [4, 2, 1, 3, 6, 5]) = 6 ∧
    min (insertList [4, 2, 1, 3, 6, 5]) = some 1 := by
  decide

/-- C10: `min` is read-only — in the heap model, whenever `min` terminates,
the resulting heap (every node's data and links) is exactly the input heap;
the loop only moves a local cursor. -/
theorem C10_min_readonly :
    ∀ (fuel : Nat) (h : Heap) (p : Option Nat) (res : Option Int) (h' : Heap),
      minH fuel h p = some (res, h') → h' = h :=
  minH_heap

theorem C10_min_readonly_witness :
    minH 3 demoHeap (some 0) = some (some 1, demoHeap) ∧
    demoHeap = demoHeap :=
  ⟨by decide, C10_min_readonly 3 demoHeap (some 0) (some 1) demoHeap (by decide)⟩

end BST
